import Mathlib

/-!
Verification of the `threadsafe_stack<T>` container from `parallelStack.cpp`.

The container wraps a `std::stack<T>` guarded by a readers-writer lock.
Every public operation acquires the lock for its whole body, so each
operation is atomic; we embed the value-level behaviour of each operation
as a pure function on the underlying sequence, modelled as a `List T`
whose head is the top of the stack.  Concurrent histories are modelled as
arbitrary linearized sequences of these atomic operations.
-/

namespace ParallelStack

/-- Embedding of `threadsafe_stack<T>::push` (parallelStack.cpp lines 34-37):
`data.push(std::move(new_value))` places the value on top of the stack. -/
def push {T : Type} (s : List T) (new_value : T) : List T :=
  new_value :: s

/-- Embedding of `threadsafe_stack<T>::emplace` (lines 39-42):
`data.emplace(std::forward<T>(new_value))` constructs the value on top of
the stack; at the value level it places `new_value` on top. -/
def emplace {T : Type} (s : List T) (new_value : T) : List T :=
  new_value :: s

/-- Embedding of `threadsafe_stack<T>::pop()` (lines 44-52): if `data` is
empty return `nullopt` and leave the stack untouched; otherwise move the
top element into a fresh shared handle, pop it, and return the handle.
The `shared_ptr` indirection is value-transparent, so the result is the
popped value paired with the remaining stack. -/
def pop {T : Type} (s : List T) : Option T × List T :=
  match s with
  | [] => (none, [])
  | top :: rest => (some top, rest)

/-- Embedding of `threadsafe_stack<T>::pop(T& value)` (lines 54-62): if
`data` is empty return `nullopt` before touching `value`; otherwise move
the top into `value`, pop it, and return `value`.  The result is
(returned optional, final content of the out-reference, remaining stack). -/
def popRef {T : Type} (s : List T) (value : T) : Option T × T × List T :=
  match s with
  | [] => (none, value, [])
  | top :: rest => (some top, top, rest)

/-- Embedding of `threadsafe_stack<T>::empty` (lines 64-67):
reports `data.empty()`. -/
def empty {T : Type} (s : List T) : Bool :=
  s.isEmpty

/-- Embedding of the copy constructor (lines 27-30): under a shared lock on
the source, `data = other.data` deep-copies the source sequence into the
new container. -/
def copyConstruct {T : Type} (other : List T) : List T :=
  other

/-- Pushes a whole sequence of values, first element first. -/
def pushAll {T : Type} (s : List T) : List T → List T
  | [] => s
  | v :: vs => pushAll (push s v) vs

/-- Performs `n` successive `pop()` calls, recording each returned optional. -/
def popN {T : Type} (s : List T) : Nat → List (Option T) × List T
  | 0 => ([], s)
  | n + 1 =>
    let r := pop s
    let rest := popN r.2 n
    (r.1 :: rest.1, rest.2)

/-- A world holding two containers A and B; `popSnd` performs `pop()` on B
and leaves A alone, mirroring a pop performed on a copy-constructed stack. -/
def popSnd {T : Type} (p : List T × List T) : Option T × (List T × List T) :=
  let r := pop p.2
  (r.1, (p.1, r.2))

/-- Performs `n` successive `pop()` calls on the second container of a pair,
recording each returned optional. -/
def popNSnd {T : Type} (p : List T × List T) : Nat → List (Option T) × (List T × List T)
  | 0 => ([], p)
  | n + 1 =>
    let r := popSnd p
    let rest := popNSnd r.2 n
    (r.1 :: rest.1, rest.2)

/-- One atomic public mutating operation of the container.  The lock makes
every operation atomic, so any concurrent history is some sequence of
these operations. -/
inductive Op (T : Type) where
  | pushOp : T → Op T
  | emplaceOp : T → Op T
  | popOp : Op T
  | popRefOp : T → Op T

/-- Effect of one atomic operation: the new stack and the value the
operation popped, if any. -/
def stepOut {T : Type} (s : List T) : Op T → List T × Option T
  | .pushOp v => (push s v, none)
  | .emplaceOp v => (emplace s v, none)
  | .popOp => ((pop s).2, (pop s).1)
  | .popRefOp out => ((popRef s out).2.2, (popRef s out).1)

/-- Runs a sequence of atomic operations from state `s`. -/
def exec {T : Type} (s : List T) : List (Op T) → List T
  | [] => s
  | op :: rest => exec (stepOut s op).1 rest

/-- The values successfully popped while running `ops` from state `s`,
in order of removal. -/
def popped {T : Type} (s : List T) : List (Op T) → List T
  | [] => []
  | op :: rest => (stepOut s op).2.toList ++ popped (stepOut s op).1 rest

/-- The values pushed (by `push` or `emplace`) during `ops`, in order. -/
def pushed {T : Type} : List (Op T) → List T
  | [] => []
  | .pushOp v :: rest => v :: pushed rest
  | .emplaceOp v :: rest => v :: pushed rest
  | .popOp :: rest => pushed rest
  | .popRefOp _ :: rest => pushed rest

/-! ### Helper lemmas -/

theorem pushAll_eq {T : Type} (vs : List T) : ∀ s : List T, pushAll s vs = vs.reverse ++ s := by
  induction vs with
  | nil => intro s; simp [pushAll]
  | cons v vs ih => intro s; simp [pushAll, push, ih]

theorem popN_exact {T : Type} (s : List T) : popN s s.length = (s.map some, []) := by
  induction s with
  | nil => simp [popN]
  | cons a rest ih => simp [popN, pop, ih]

theorem popN_succ {T : Type} (s : List T) (n : Nat) :
    popN s (n + 1) = ((pop s).1 :: (popN (pop s).2 n).1, (popN (pop s).2 n).2) := rfl

theorem popN_overflow {T : Type} (s : List T) :
    popN s (s.length + 1) = (s.map some ++ [none], []) := by
  induction s with
  | nil => simp [popN, pop]
  | cons a rest ih =>
    rw [List.length_cons, popN_succ]
    simp [pop, ih]

theorem conservation {T : Type} (ops : List (Op T)) :
    ∀ s : List T,
      (↑(pushed ops) + ↑s : Multiset T) = ↑(popped s ops) + ↑(exec s ops) := by
  induction ops with
  | nil => intro s; simp [pushed, popped, exec]
  | cons op rest ih =>
    intro s
    cases op with
    | pushOp v =>
      have h := ih (push s v)
      simp only [push, ← Multiset.cons_coe, Multiset.add_cons] at h
      simp only [pushed, popped, exec, stepOut, Option.toList, List.nil_append,
        ← Multiset.cons_coe, Multiset.cons_add]
      simpa [push] using h
    | emplaceOp v =>
      have h := ih (emplace s v)
      simp only [emplace, ← Multiset.cons_coe, Multiset.add_cons] at h
      simp only [pushed, popped, exec, stepOut, Option.toList, List.nil_append,
        ← Multiset.cons_coe, Multiset.cons_add]
      simpa [emplace] using h
    | popOp =>
      cases s with
      | nil =>
        have h := ih []
        simpa [pushed, popped, exec, stepOut, pop] using h
      | cons a s2 =>
        have h := ih s2
        simp only [pushed, popped, exec, stepOut, pop, Option.toList, List.cons_append,
          List.nil_append] at *
        rw [← Multiset.cons_coe, Multiset.add_cons, h, ← Multiset.cons_coe,
          Multiset.cons_add]
    | popRefOp out =>
      cases s with
      | nil =>
        have h := ih []
        simpa [pushed, popped, exec, stepOut, popRef] using h
      | cons a s2 =>
        have h := ih s2
        simp only [pushed, popped, exec, stepOut, popRef, Option.toList, List.cons_append,
          List.nil_append] at *
        rw [← Multiset.cons_coe, Multiset.add_cons, h, ← Multiset.cons_coe,
          Multiset.cons_add]

theorem length_conservation {T : Type} (ops : List (Op T)) (s : List T) :
    (pushed ops).length + s.length = (popped s ops).length + (exec s ops).length := by
  have h := congrArg Multiset.card (conservation ops s)
  simpa [Multiset.card_add] using h

theorem empty_iff_nil {T : Type} (s : List T) : empty s = true ↔ s = [] := by
  cases s <;> simp [empty]

theorem popNSnd_fst {T : Type} (k : Nat) : ∀ p : List T × List T, (popNSnd p k).2.1 = p.1 := by
  induction k with
  | zero => intro p; rfl
  | succ k ih =>
    intro p
    show (popNSnd (popSnd p).2 k).2.1 = p.1
    rw [ih]
    rfl

theorem popNSnd_outs {T : Type} (n : Nat) :
    ∀ a b : List T, (popNSnd (a, b) n).1 = (popN b n).1 := by
  induction n with
  | zero => intro a b; rfl
  | succ n ih =>
    intro a b
    simp [popNSnd, popSnd, popN_succ, ih]

/-! ### Claims -/

/-- Claim C1: pushing `v1, ..., vn` into a freshly constructed stack with no
interleaved pops and then calling `pop()` `n + 1` times returns present
results carrying `vn, ..., v1` in that order followed by an absent result,
leaving the stack empty. -/
theorem claim_C1_lifo {T : Type} (vs : List T) :
    popN (pushAll [] vs) (vs.length + 1) = (vs.reverse.map some ++ [none], []) := by
  have h1 : pushAll ([] : List T) vs = vs.reverse := by simpa using pushAll_eq vs []
  rw [h1]
  simpa [List.length_reverse] using popN_overflow vs.reverse

/-- Claim C2: on an empty stack both `pop()` and `pop(out)` return an absent
result and leave the stack (and the out-reference) unchanged, and repeating
either call on the resulting state yields the same absent result again. -/
theorem claim_C2_pop_empty {T : Type} (s : List T) (out : T) (h : empty s = true) :
    pop s = (none, s) ∧ popRef s out = (none, out, s) ∧
    pop (pop s).2 = (none, s) ∧ popRef (popRef s out).2.2 out = (none, out, s) := by
  have hs : s = [] := (empty_iff_nil s).mp h
  subst hs
  exact ⟨rfl, rfl, rfl, rfl⟩

/-- Witness for claim C2 at the concrete empty stack of naturals. -/
theorem claim_C2_witness :
    empty ([] : List Nat) = true ∧
    (pop ([] : List Nat) = (none, []) ∧ popRef ([] : List Nat) 0 = (none, 0, []) ∧
     pop (pop ([] : List Nat)).2 = (none, []) ∧
     popRef (popRef ([] : List Nat) 0).2.2 0 = (none, 0, [])) :=
  ⟨rfl, claim_C2_pop_empty [] 0 rfl⟩

/-- Claim C3: `empty()` is true on a freshly constructed stack, false right
after any successful push, and over every sequence of operations run from a
fresh stack it is true exactly when the number of successful pops equals the
number of successful pushes. -/
theorem claim_C3_empty_balance {T : Type} :
    empty ([] : List T) = true ∧
    (∀ (s : List T) (v : T), empty (push s v) = false) ∧
    (∀ ops : List (Op T),
      (empty (exec [] ops) = true ↔ (pushed ops).length = (popped [] ops).length)) := by
  refine ⟨rfl, fun s v => rfl, fun ops => ?_⟩
  have h := length_conservation ops []
  simp only [List.length_nil, Nat.add_zero] at h
  rw [empty_iff_nil, ← List.length_eq_zero]
  omega

/-- Claim C4: `pop(out)` on a non-empty stack moves the former top both into
the out-reference and into the returned present optional, and the presence
of the returned optional is exactly the success signal. -/
theorem claim_C4_popRef_dual {T : Type} (top : T) (rest : List T) (out : T) :
    popRef (top :: rest) out = (some top, top, rest) ∧
    (∀ s : List T, ((popRef s out).1 = none ↔ s = [])) := by
  refine ⟨rfl, fun s => ?_⟩
  cases s <;> simp [popRef]

/-- Claim C5: copy construction yields a stack with the same contents popping
in the same LIFO order, and any number of pops performed on the copy leaves
the original stack completely unchanged. -/
theorem claim_C5_copy_independent {T : Type} (A : List T) (k : Nat) :
    copyConstruct A = A ∧
    (popNSnd (A, copyConstruct A) k).2.1 = A ∧
    (popNSnd (A, copyConstruct A) A.length).1 = A.map some := by
  refine ⟨rfl, popNSnd_fst k (A, copyConstruct A), ?_⟩
  simp only [copyConstruct]
  rw [popNSnd_outs A.length A A, popN_exact]

/-- Claim C6: a push grows the sequence by exactly one and places its value
on top; a successful pop removes exactly the top element, shrinks the
sequence by one, and one occurrence of the removed element leaves the
container. -/
theorem claim_C6_size_effects {T : Type} [DecidableEq T] (s : List T) (v top : T)
    (rest : List T) :
    (push s v).length = s.length + 1 ∧
    pop (push s v) = (some v, s) ∧
    pop (top :: rest) = (some top, rest) ∧
    rest.length + 1 = (top :: rest).length ∧
    rest.count top + 1 = (top :: rest).count top := by
  refine ⟨rfl, rfl, rfl, rfl, ?_⟩
  simp [List.count_cons_self]

/-- Claim C7: `emplace` is functionally equivalent to `push`: the resulting
contents are identical, and so is the observable behaviour under every
subsequent sequence of operations. -/
theorem claim_C7_emplace_eq_push {T : Type} (s : List T) (v : T) (ops : List (Op T)) :
    emplace s v = push s v ∧
    exec (emplace s v) ops = exec (push s v) ops ∧
    popped (emplace s v) ops = popped (push s v) ops ∧
    empty (emplace s v) = empty (push s v) :=
  ⟨rfl, rfl, rfl, rfl⟩

/-- Claim C9: for every linearized interleaving of atomic operations that
starts from a fresh stack and leaves it empty, the multiset of successfully
popped values equals the multiset of pushed values, so exactly as many pops
succeed as elements were pushed. -/
theorem claim_C9_conservation {T : Type} (ops : List (Op T))
    (h : empty (exec [] ops) = true) :
    (↑(popped [] ops) : Multiset T) = ↑(pushed ops) ∧
    (popped [] ops).length = (pushed ops).length := by
  have hc := conservation ops []
  have hnil : exec ([] : List T) ops = [] := (empty_iff_nil _).mp h
  rw [hnil] at hc
  simp only [Multiset.coe_nil, add_zero] at hc
  refine ⟨hc.symm, ?_⟩
  have hcard := congrArg Multiset.card hc
  simpa using hcard.symm

/-- Witness for claim C9 at a concrete two-operation history. -/
theorem claim_C9_witness :
    empty (exec [] [Op.pushOp (1 : Nat), Op.popOp]) = true ∧
    ((↑(popped [] [Op.pushOp (1 : Nat), Op.popOp]) : Multiset Nat)
        = ↑(pushed [Op.pushOp (1 : Nat), Op.popOp]) ∧
     (popped [] [Op.pushOp (1 : Nat), Op.popOp]).length
        = (pushed [Op.pushOp (1 : Nat), Op.popOp]).length) :=
  ⟨rfl, claim_C9_conservation _ rfl⟩

/-- Claim C10: `pop(out)` on an empty stack returns an absent result before
touching the out-reference: the out value and the stack are both unchanged. -/
theorem claim_C10_out_untouched {T : Type} (s : List T) (out : T) (h : empty s = true) :
    (popRef s out).2.1 = out ∧ (popRef s out).2.2 = s ∧ (popRef s out).1 = none := by
  have hs : s = [] := (empty_iff_nil s).mp h
  subst hs
  exact ⟨rfl, rfl, rfl⟩

/-- Witness for claim C10 at the concrete empty stack of naturals. -/
theorem claim_C10_witness :
    empty ([] : List Nat) = true ∧
    ((popRef ([] : List Nat) 7).2.1 = 7 ∧ (popRef ([] : List Nat) 7).2.2 = [] ∧
     (popRef ([] : List Nat) 7).1 = none) :=
  ⟨rfl, claim_C10_out_untouched [] 7 rfl⟩

end ParallelStack
